import Mathlib

/-!
Verification development for the claude-run repository: a shallow embedding of
the core storage, search, fork-reconstruction and watcher logic, with theorems
settling the frozen claims about it.

Modelling conventions:
  * A transcript file's raw content is a `List Char`; byte counts use the
    UTF-8 width of each character (`Char.utf8Size`), matching Node's
    `Buffer.byteLength(line, "utf-8")` and `stat().size`.
  * `JSON.parse` is an external library call; it is modelled by an explicit
    parse oracle `parse : List Char → Option StreamMessage` passed to each
    reader.  Concrete theorems use the oracle `cparse` below, whose case list
    maps each concrete JSON line to exactly the value `JSON.parse` would
    produce for it (and everything else to a parse failure).
  * Node's `readline` interface is modelled as: split the decoded text on the
    newline character and drop a final empty segment produced by a trailing
    newline (readline emits no empty line after a final "\n").  Its carriage
    return handling is not modelled; theorems that depend on line splitting
    therefore carry a `'\r' ∉ content` fidelity hypothesis.
  * Maps keyed by strings become association lists; filesystem state (directory
    listings, file contents, session indexes) is passed as explicit arguments.
-/

/-- Message type tag of one transcript line (`ConversationMessage.type` in
`api/storage.ts`): `user`, `assistant`, `summary`, and `other` for every
remaining tag such as `file-history-snapshot`. -/
inductive MsgType where
  | user
  | assistant
  | summary
  | other
deriving DecidableEq

/-- The observable part of a parsed `ConversationMessage` that the conversation
readers inspect: its `type` tag.  The `payload` field stands for the rest of
the parsed object, so that distinct lines parse to distinguishable values. -/
structure StreamMessage where
  type : MsgType
  payload : Nat
deriving DecidableEq

/-- Result of an incremental read (`StreamResult` in `api/storage.ts`). -/
structure StreamResult where
  messages : List StreamMessage
  nextOffset : Nat
deriving DecidableEq

/-- Whitespace characters recognised by the model of JavaScript's
`String.prototype.trim`. -/
def isWS (c : Char) : Bool :=
  c = ' ' || c = '\t' || c = '\n' || c = '\r'

/-- A line is blank when `line.trim()` is falsy, i.e. every character is
whitespace. -/
def isBlank (l : List Char) : Bool :=
  l.all isWS

/-- Model of `content.trim()`: strip leading and trailing whitespace. -/
def trimChars (l : List Char) : List Char :=
  ((l.dropWhile isWS).reverse.dropWhile isWS).reverse

/-- UTF-8 byte length of a character sequence (`Buffer.byteLength`). -/
def utf8Len (l : List Char) : Nat :=
  (l.map Char.utf8Size).sum

/-- Model of `text.split("\n")`: split into newline-separated segments,
keeping empty segments (including a final empty segment after a trailing
newline), exactly as JavaScript's `split`. -/
def splitNl : List Char → List (List Char)
  | [] => [[]]
  | c :: t =>
    if c = '\n' then [] :: splitNl t
    else
      match splitNl t with
      | [] => [[c]]
      | s :: ss => (c :: s) :: ss

/-- Drop the leading `n` BYTES of a character sequence.  Models
`createReadStream({ start: n })`: the stream begins at byte offset `n`.  When
`n` falls inside a multi-byte character that character is skipped entirely;
theorems relying on byte fidelity assume `n` lands on a character boundary. -/
def byteDrop (n : Nat) : List Char → List Char
  | [] => []
  | c :: t => if n = 0 then c :: t else byteDrop (n - c.utf8Size) t

/-- Model of the line sequence `readline` yields over a text: `split("\n")`
without the final empty segment that a trailing newline produces. -/
def rlOf (segs : List (List Char)) : List (List Char) :=
  if 1 < segs.length ∧ segs.getLast? = some [] then segs.dropLast else segs

/-- Total byte cost the incremental readers charge for a list of lines when
every line is consumed: `Buffer.byteLength(line) + 1` per line. -/
def segsBytes (segs : List (List Char)) : Nat :=
  (segs.map (fun l => utf8Len l + 1)).sum

/-- The per-line loop of `getConversationStream` in `api/storage.ts`
(lines 462-480): blank lines are consumed without parsing; a line that parses
is consumed and contributes to the result when its type is `user` or
`assistant`; the first non-blank line that fails to parse stops the loop.
Returns the collected messages and the bytes consumed. -/
def streamConsume (parse : List Char → Option StreamMessage) :
    List (List Char) → List StreamMessage × Nat
  | [] => ([], 0)
  | l :: rest =>
    if isBlank l then
      let r := streamConsume parse rest
      (r.1, (utf8Len l + 1) + r.2)
    else
      match parse l with
      | none => ([], 0)
      | some m =>
        let r := streamConsume parse rest
        ((if m.type = MsgType.user ∨ m.type = MsgType.assistant then m :: r.1 else r.1),
         (utf8Len l + 1) + r.2)

/-- Model of the module-level `getConversationStream` in `api/storage.ts`
(lines 430-494), for an existing transcript file with raw content `content`:
if `fromOffset` is at or past the file size, return empty with the offset
unchanged; otherwise stream from the byte offset, read lines, consume them,
and clamp the resulting offset to the file size. -/
def getConversationStream (parse : List Char → Option StreamMessage)
    (content : List Char) (fromOffset : Nat) : StreamResult :=
  let fileSize := utf8Len content
  if fileSize ≤ fromOffset then ⟨[], fromOffset⟩
  else
    let lines := rlOf (splitNl (byteDrop fromOffset content))
    let r := streamConsume parse lines
    let actualOffset := fromOffset + r.2
    ⟨r.1, if fileSize < actualOffset then fileSize else actualOffset⟩

namespace ClaudeStorage

/-- The per-line loop of `ClaudeStorage.getConversationStream` in
`src/watcher.ts` (lines 310-328): same consumption discipline as the
module-level reader, except the line byte cost adds `+1` only for segments
that are not the last element of the `split("\n")` result. -/
def streamConsumeW (parse : List Char → Option StreamMessage) :
    List (List Char) → List StreamMessage × Nat
  | [] => ([], 0)
  | [l] =>
    if isBlank l then ([], utf8Len l)
    else
      match parse l with
      | none => ([], 0)
      | some m =>
        ((if m.type = MsgType.user ∨ m.type = MsgType.assistant then [m] else []),
         utf8Len l)
  | l :: l2 :: rest =>
    if isBlank l then
      let r := streamConsumeW parse (l2 :: rest)
      (r.1, (utf8Len l + 1) + r.2)
    else
      match parse l with
      | none => ([], 0)
      | some m =>
        let r := streamConsumeW parse (l2 :: rest)
        ((if m.type = MsgType.user ∨ m.type = MsgType.assistant then m :: r.1 else r.1),
         (utf8Len l + 1) + r.2)

/-- Model of `ClaudeStorage.getConversationStream` in `src/watcher.ts`
(lines 280-338): the whole file is decoded and sliced at `fromOffset` as a
JavaScript string index (a character count, not a byte count), split on
newlines, and consumed; the resulting offset is not clamped. -/
def getConversationStream (parse : List Char → Option StreamMessage)
    (content : List Char) (fromOffset : Nat) : StreamResult :=
  let fileSize := utf8Len content
  if fileSize ≤ fromOffset then ⟨[], fromOffset⟩
  else
    let sliced := content.drop fromOffset
    if sliced.isEmpty then ⟨[], fromOffset⟩
    else
      let r := streamConsumeW parse (splitNl sliced)
      ⟨r.1, fromOffset + r.2⟩

end ClaudeStorage

/-- The per-line body of the full-read loop: `user`/`assistant` messages are
pushed at the back, `summary` messages are unshifted to the front, malformed
lines and every other type are skipped. -/
def convStep (parse : List Char → Option StreamMessage)
    (msgs : List StreamMessage) (l : List Char) : List StreamMessage :=
  match parse l with
  | none => msgs
  | some m =>
    if m.type = MsgType.user ∨ m.type = MsgType.assistant then msgs ++ [m]
    else if m.type = MsgType.summary then m :: msgs
    else msgs

/-- Model of the full read `getConversation` in `api/storage.ts`
(lines 394-428) over an existing file's raw content: trim, split on newlines,
drop empty strings, then fold every line through `convStep`. -/
def getConversation (parse : List Char → Option StreamMessage)
    (content : List Char) : List StreamMessage :=
  let lines := (splitNl (trimChars content)).filter (fun l => !l.isEmpty)
  lines.foldl (convStep parse) []

/-- Full read including the missing-file case: `findSessionFile` returning
`null` yields an empty message list, not an error. -/
def getConversationFile (parse : List Char → Option StreamMessage) :
    Option (List Char) → List StreamMessage
  | none => []
  | some content => getConversation parse content

/-- Token usage record of one transcript line (`TokenUsage` in
`api/storage.ts`); absent counters are already normalised to `0`, as the
reader's `|| 0` does. -/
structure TokenUsage where
  input_tokens : Nat
  output_tokens : Nat
  cache_creation_input_tokens : Nat
  cache_read_input_tokens : Nat
deriving DecidableEq

/-- Aggregate token accounting for one session (`SessionTokens`). -/
structure SessionTokens where
  inputTokens : Nat
  outputTokens : Nat
  cacheCreationTokens : Nat
  cacheReadTokens : Nat
deriving DecidableEq

/-- Model of the recomputation loop of `getSessionTokens` in `api/storage.ts`
(lines 527-553).  A transcript is the list of its lines, each mapped to
`some usage` when the line parses and carries `message.usage`, and `none`
when it is blank, malformed, or has no usage record; the loop keeps the last
usage seen and a running output-token sum.  `tokStep` is the loop body: a
line without usage leaves the state unchanged; a usage-bearing line replaces
the last-usage triple and adds its output tokens to the running sum. -/
def tokStep (st : Option (Nat × Nat × Nat) × Nat) (l : Option TokenUsage) :
    Option (Nat × Nat × Nat) × Nat :=
  match l with
  | none => st
  | some u =>
    (some (u.input_tokens, u.cache_creation_input_tokens, u.cache_read_input_tokens),
     st.2 + u.output_tokens)

/-- The whole recomputation: fold every line, then assemble the result from
the last usage (or zeros when no line carried usage) and the output sum. -/
def getSessionTokens (lines : List (Option TokenUsage)) : SessionTokens :=
  let acc := lines.foldl tokStep (none, 0)
  match acc.1 with
  | some (i, cc, cr) => ⟨i + cc + cr, acc.2, cc, cr⟩
  | none => ⟨0, acc.2, 0, 0⟩

/-- Content block type tag (`ContentBlock.type` in `api/storage.ts`). -/
inductive BlockType where
  | text
  | thinking
  | tool_use
  | tool_result
deriving DecidableEq

/-- The part of a `ContentBlock` that `extractTextContent` reads: the type tag
and the optional `text` field. -/
structure ContentBlock where
  type : BlockType
  text : Option String
deriving DecidableEq

/-- A message's `content`: either a plain string or a block list. -/
inductive MessageContent where
  | str (s : String)
  | blocks (bs : List ContentBlock)
deriving DecidableEq

/-- The part of a parsed transcript line that `searchSessions` reads: the type
tag and the optional `message.content` payload. -/
structure SearchMessage where
  type : MsgType
  content : Option MessageContent
deriving DecidableEq

/-- Session metadata as produced by `getSessions` (`Session` in
`api/storage.ts`), restricted to the fields `searchSessions` copies into
results. -/
structure SessionRec where
  id : String
  display : String
  projectName : String
  project : String
  timestamp : Int
deriving DecidableEq

/-- One example match inside a search result (`SearchMatch`). -/
structure SearchMatch where
  text : String
  role : MsgType
deriving DecidableEq

/-- One search result (`SearchResult`). -/
structure SearchResult where
  sessionId : String
  display : String
  projectName : String
  project : String
  timestamp : Int
  matches' : List SearchMatch
deriving DecidableEq

/-- Model of `array.join(" ")`. -/
def joinSpace : List String → String
  | [] => ""
  | [s] => s
  | s :: rest => s ++ " " ++ joinSpace rest

/-- Model of `text.toLowerCase()` as character-wise lowering (they agree on
the ASCII text used by the concrete theorems). -/
def toLowerStr (s : String) : String :=
  ⟨s.data.map Char.toLower⟩

/-- Model of `extractTextContent` (`api/storage.ts` lines 567-575): plain
string content is returned as is; block content keeps blocks whose type is
`text` with a truthy `text` field and joins their texts with single spaces;
absent content gives the empty string. -/
def extractTextContent (m : SearchMessage) : String :=
  match m.content with
  | none => ""
  | some (MessageContent.str s) => s
  | some (MessageContent.blocks bs) =>
    joinSpace
      ((bs.filter (fun b => b.type = BlockType.text ∧ b.text ≠ none ∧ b.text ≠ some "")).map
        (fun b => b.text.getD ("")))

/-- Model of `haystack.includes(needle)` on JavaScript strings (character
granularity; identical to code-unit granularity for the basic-plane text the
theorems use). -/
def containsSubstring (hay needle : String) : Bool :=
  (List.range (hay.length + 1)).any (fun i => needle.toList.isPrefixOf (hay.toList.drop i))

/-- Model of `haystack.indexOf(needle)` restricted to the found case: the first
index at which `needle` occurs, if any. -/
def indexOfSubstring (hay needle : String) : Option Nat :=
  (List.range (hay.length + 1)).find? (fun i => needle.toList.isPrefixOf (hay.toList.drop i))

/-- Model of `s.slice(a, b)` for ascending character indexes. -/
def sliceStr (s : String) (a b : Nat) : String :=
  ⟨(s.toList.drop a).take (b - a)⟩

/-- Model of `extractSnippet` (`api/storage.ts` lines 577-588). -/
def extractSnippet (text query : String) (maxLen : Nat) : String :=
  match indexOfSubstring (toLowerStr text) (toLowerStr query) with
  | none => ⟨text.toList.take maxLen⟩
  | some idx =>
    let lo := idx - 40
    let hi := min text.length (idx + query.length + 80)
    let snippet := sliceStr text lo hi
    let snippet := if 0 < lo then ("...") ++ snippet else snippet
    if hi < text.length then snippet ++ ("...") else snippet

/-- Lookup in the `Map` that `searchSessions` builds from the session list;
later entries with the same id overwrite earlier ones, so the last match
wins. -/
def sessionLookup (sessions : List SessionRec) (sid : String) : Option SessionRec :=
  sessions.foldl (fun acc s => if s.id = sid then some s else acc) none

/-- The inner per-line match loop of `searchSessions` (lines 612-627): stop at
3 matches; skip malformed lines and non-`user`/`assistant` types; push a
snippet when the lower-cased text contains the lower-cased query. -/
def collectMatches (query lowerQuery : String) :
    List (Option SearchMessage) → List SearchMatch → List SearchMatch
  | [], acc => acc
  | l :: rest, acc =>
    if 3 ≤ acc.length then acc
    else
      match l with
      | none => collectMatches query lowerQuery rest acc
      | some m =>
        if m.type = MsgType.user ∨ m.type = MsgType.assistant then
          let text := extractTextContent m
          if containsSubstring (toLowerStr text) lowerQuery then
            collectMatches query lowerQuery rest
              (acc ++ [⟨extractSnippet text query 120, m.type⟩])
          else collectMatches query lowerQuery rest acc
        else collectMatches query lowerQuery rest acc

/-- The outer per-session loop of `searchSessions` (lines 601-642): stop when
`maxResults` results are collected; skip file-index entries without session
metadata; push a result when at least one match was found. -/
def searchLoop (sessions : List SessionRec) (query lowerQuery : String) (maxResults : Nat) :
    List (String × List (Option SearchMessage)) → List SearchResult → List SearchResult
  | [], results => results
  | (sid, fileLines) :: rest, results =>
    if maxResults ≤ results.length then results
    else
      match sessionLookup sessions sid with
      | none => searchLoop sessions query lowerQuery maxResults rest results
      | some sess =>
        let found := collectMatches query lowerQuery fileLines []
        if found.isEmpty then searchLoop sessions query lowerQuery maxResults rest results
        else
          searchLoop sessions query lowerQuery maxResults rest
            (results ++ [⟨sid, sess.display, sess.projectName, sess.project, sess.timestamp, found⟩])

/-- Stable insertion step for the final descending-timestamp sort. -/
def insertDesc (r : SearchResult) : List SearchResult → List SearchResult
  | [] => [r]
  | x :: xs => if x.timestamp < r.timestamp then r :: x :: xs else x :: insertDesc r xs

/-- Model of `results.sort((a, b) => b.timestamp - a.timestamp)`: a stable sort
by descending timestamp. -/
def sortByTimestampDesc (l : List SearchResult) : List SearchResult :=
  l.foldr insertDesc []

/-- Model of `searchSessions` (`api/storage.ts` lines 590-645).  The session
list (the awaited `getSessions()` result) and the file index with each
session's parsed transcript lines are explicit arguments. -/
def searchSessions (query : String) (maxResults : Nat) (sessions : List SessionRec)
    (fileIndex : List (String × List (Option SearchMessage))) : List SearchResult :=
  if query = "" ∨ query.length < 2 then []
  else sortByTimestampDesc (searchLoop sessions query (toLowerStr query) maxResults fileIndex [])

/-- One entry of a project directory listing: a file name and its modification
time in epoch milliseconds (`stat().mtimeMs`). -/
structure DirFile where
  name : String
  mtime : Int
deriving DecidableEq

/-- Model of `name.endsWith(suffix)` by character-list suffix comparison. -/
def endsWithStr (s suf : String) : Bool :=
  suf.data.isSuffixOf s.data

/-- Model of `basename(file, ".jsonl")` for plain file names: strip the
extension when present. -/
def basenameJsonl (s : String) : String :=
  if endsWithStr s (".jsonl") then ⟨s.data.take (s.data.length - 6)⟩ else s

/-- One step of the closest-file fold of `findSessionByTimestamp`: a strictly
smaller absolute mtime distance replaces the best file so far, so the first
minimiser in directory order wins ties (the `Infinity` initial distance is
the `none` starting accumulator). -/
def closestStep (timestamp : Int) (acc : Option DirFile) (f : DirFile) : Option DirFile :=
  match acc with
  | none => some f
  | some b =>
    if (f.mtime - timestamp).natAbs < (b.mtime - timestamp).natAbs then some f else acc

/-- Model of `findSessionByTimestamp` (`api/storage.ts` lines 231-267) over an
existing project directory listing: keep `.jsonl` files, pick the one whose
mtime has the smallest absolute difference from the entry timestamp, and
return its basename without the extension; an empty listing yields `none`. -/
def findSessionByTimestamp (files : List DirFile) (timestamp : Int) : Option String :=
  let jsonlFiles := files.filter (fun f => endsWithStr f.name (".jsonl"))
  let best := jsonlFiles.foldl (closestStep timestamp) none
  best.map (fun f => basenameJsonl f.name)

/-- Model of `encodeProjectPath` (`api/storage.ts` lines 157-159):
`path.replace(/[/.]/g, "-")`. -/
def encodeProjectPath (path : String) : String :=
  ⟨path.data.map (fun c => if c = '/' || c = '.' then '-' else c)⟩

/-- The part of a `ConversationMessage` that `buildBranch` reads: the optional
`uuid` and `parentUuid` back-reference. -/
structure BranchMessage where
  uuid : Option String
  parentUuid : Option String
deriving DecidableEq

/-- The root list `buildBranch` collects: messages without a `parentUuid`, in
file order. -/
def rootsOf (msgs : List BranchMessage) : List BranchMessage :=
  msgs.filter (fun m => m.parentUuid = none)

/-- The children multi-map of `buildBranch`, read at one key: messages whose
`parentUuid` is `u`, in file order. -/
def childrenOf (msgs : List BranchMessage) (u : String) : List BranchMessage :=
  msgs.filter (fun m => m.parentUuid = some u)

/-- Lookup of a recorded per-parent branch choice (`branchChoices.get`). -/
def lookupChoice (choices : List (String × String)) (u : String) : Option String :=
  (choices.find? (fun p => p.1 = u)).map (fun p => p.2)

/-- One step of the `while` loop of `buildBranch` (`session-view.tsx`
lines 52-60): from the current message, `none` when it has no uuid or no
children (loop exit); otherwise the recorded chosen child if it exists, and
the last-listed child by default or when the chosen uuid is not found. -/
def walkNext (msgs : List BranchMessage) (choices : List (String × String))
    (cur : BranchMessage) : Option BranchMessage :=
  match cur.uuid with
  | none => none
  | some u =>
    match childrenOf msgs u with
    | [] => none
    | c :: cs =>
      some
        (match lookupChoice choices u with
         | some chosen =>
           ((c :: cs).find? (fun m => m.uuid = some chosen)).getD
             ((c :: cs).getLast (by simp))
         | none => (c :: cs).getLast (by simp))

/-- The chain the `while` loop of `buildBranch` builds from a starting
message.  The source loop has no bound; `fuel` only bounds the modelled chain
length and is instantiated so that it never runs out on terminating (acyclic)
inputs. -/
def walk (msgs : List BranchMessage) (choices : List (String × String)) :
    Nat → BranchMessage → List BranchMessage
  | 0, cur => [cur]
  | fuel + 1, cur =>
    match walkNext msgs choices cur with
    | none => [cur]
    | some next => cur :: walk msgs choices fuel next

/-- Model of `buildBranch` (`web/components/session-view.tsx` lines 25-63):
empty input yields the empty list; with no root the original flat sequence is
returned unchanged; otherwise the chain is walked from the first root. -/
def buildBranch (msgs : List BranchMessage) (choices : List (String × String)) :
    List BranchMessage :=
  if msgs.isEmpty then []
  else
    match rootsOf msgs with
    | [] => msgs
    | r :: _ => walk msgs choices msgs.length r

/-- A message list is chained when every element after the first is a recorded
child of its predecessor. -/
def ChainedB (msgs : List BranchMessage) : List BranchMessage → Bool
  | x :: y :: rest =>
    (match x.uuid with
     | none => false
     | some u => decide (y ∈ childrenOf msgs u)) && ChainedB msgs (y :: rest)
  | _ => true

/-- Events a `ClaudeWatcher` can emit (`WatcherEvents` in `src/watcher.ts`). -/
inductive WEmit where
  | historyChange
  | sessionChange (sessionId : String)
  | projectChange (projectId : String)
deriving DecidableEq

/-- Watcher state: whether the chokidar handle is open (`watcher !== null`)
and the set of paths with a pending debounce timer (`debounceTimers`). -/
structure WState where
  active : Bool
  timers : List String
deriving DecidableEq

/-- Actions driving the watcher's step relation: a raw filesystem event
delivered by chokidar, a debounce timer firing, and the `stop`/`start`
methods. -/
inductive WAction where
  | fsEvent (path : String)
  | timerFire (path : String)
  | stop
  | start
deriving DecidableEq

/-- Path components split on `/`. -/
def pathParts (p : String) : List String :=
  p.splitOn ("/")

/-- Model of `basename(path)`. -/
def basenameStr (p : String) : String :=
  (pathParts p).getLastD ("")

/-- Model of `basename(dirname(path))`. -/
def dirBasename (p : String) : String :=
  ((pathParts p).dropLast).getLastD ("")

/-- Model of `ClaudeWatcher.emitChange` (`src/watcher.ts` lines 59-68): the
events emitted when a debounced change for `path` settles. -/
def emitChange (path : String) : List WEmit :=
  if endsWithStr path ("history.jsonl") then [WEmit.historyChange]
  else if endsWithStr path (".jsonl") then
    [WEmit.sessionChange (basenameJsonl (basenameStr path)),
     WEmit.projectChange (dirBasename path)]
  else []

/-- Step relation of the watcher.  `fsEvent` models `handleChange`: ignored
when the watch handle is closed, otherwise it resets the path's debounce
timer.  `timerFire` models a pending debounce timer running out: it removes
the timer and emits.  `stop` closes the handle and cancels every pending
timer; `start` reopens the handle. -/
def wstep (s : WState) : WAction → WState × List WEmit
  | WAction.fsEvent p =>
    if s.active then (⟨s.active, p :: s.timers.erase p⟩, []) else (s, [])
  | WAction.timerFire p =>
    if p ∈ s.timers then (⟨s.active, s.timers.erase p⟩, emitChange p) else (s, [])
  | WAction.stop => (⟨false, []⟩, [])
  | WAction.start => (⟨true, s.timers⟩, [])

/-- Run a sequence of actions, collecting every emitted event in order. -/
def runW : WState → List WAction → WState × List WEmit
  | s, [] => (s, [])
  | s, a :: rest =>
    let r := wstep s a
    let r2 := runW r.1 rest
    (r2.1, r.2 ++ r2.2)

/-- Concrete transcript lines used by the concrete theorems, with their exact
JSON text.  Braces are written with their character codes. -/
def userLine : List Char := ("\x7b\"type\":\"user\"\x7d").toList

/-- A second, distinct well-formed user line. -/
def userLine2 : List Char := ("\x7b\"type\":\"user\",\"n\":2\x7d").toList

/-- A well-formed assistant line. -/
def assistantLine : List Char := ("\x7b\"type\":\"assistant\"\x7d").toList

/-- A well-formed summary line, as in the spec's example scenario. -/
def summaryLine : List Char := ("\x7b\"type\":\"summary\",\"summary\":\"recap\"\x7d").toList

/-- Concrete parse oracle: maps each concrete line above to exactly the value
`JSON.parse` yields for it (a user, user, assistant, summary object
respectively) and every other character sequence to a parse failure, which is
what `JSON.parse` does on all other strings appearing in the concrete
theorems (each is either a truncated JSON object or not JSON at all). -/
def cparse (l : List Char) : Option StreamMessage :=
  if l = userLine then some ⟨MsgType.user, 0⟩
  else if l = userLine2 then some ⟨MsgType.user, 2⟩
  else if l = assistantLine then some ⟨MsgType.assistant, 3⟩
  else if l = summaryLine then some ⟨MsgType.summary, 1⟩
  else none

/-- A transcript consisting of one summary line. -/
def summaryContent : List Char := summaryLine ++ ['\n']

/-- A transcript whose first line holds a two-byte character followed by a
well-formed user line; used to exhibit the byte-offset versus character-offset
divergence of the two incremental readers. -/
def multibyteContent : List Char := 'é' :: '\n' :: (userLine ++ ['\n'])

/-- The transcript of the spec's full-read example: a summary line, then a
user line, then an assistant line. -/
def exampleConversation : List Char :=
  summaryLine ++ '\n' :: userLine ++ '\n' :: assistantLine ++ ['\n']

/-- A line the incremental readers consume without stopping: blank, or
parseable. -/
def okLine (parse : List Char → Option StreamMessage) (l : List Char) : Bool :=
  isBlank l || (parse l).isSome

/-- A session list and file index for the concrete search scenarios: one
session whose transcript's only message contains the text `oh hi there`. -/
def demoSessions : List SessionRec := [⟨"s1", "fix bug", "app", "/a/app", 5⟩]

/-- File index whose single transcript message contains `hi`. -/
def demoIndexHi : List (String × List (Option SearchMessage)) :=
  [("s1", [some ⟨MsgType.user, some (MessageContent.str ("oh hi there"))⟩])]

/-- File index in which exactly one message contains `hi!` (the other parsed
message does not match and one line is malformed). -/
def demoIndexBang : List (String × List (Option SearchMessage)) :=
  [("s1", [some ⟨MsgType.user, some (MessageContent.str ("say hi! now"))⟩,
           some ⟨MsgType.assistant, some (MessageContent.str ("nothing here"))⟩,
           none])]

/-- Root message of the concrete three-message fork demo. -/
def demoR : BranchMessage := ⟨some ("r"), none⟩

/-- First-listed child of the demo root. -/
def demoA : BranchMessage := ⟨some ("a"), some ("r")⟩

/-- Last-listed child of the demo root. -/
def demoB : BranchMessage := ⟨some ("b"), some ("r")⟩

/-- The demo flat message sequence: one root with two children. -/
def demoMsgs : List BranchMessage := [demoR, demoA, demoB]

/-- A rank function witnessing the demo tree's acyclicity. -/
def demoRank : BranchMessage → Nat := fun m => if m.uuid = some ("r") then 1 else 0


/-! ## Helper lemmas -/

theorem getLast?_cons_getD {α : Type} (a : α) (l : List α) :
    (a :: l).getLast? = some (l.getLast?.getD a) := by
  induction l generalizing a with
  | nil => rfl
  | cons b t ih => rw [List.getLast?_cons_cons, ih b]; rfl

theorem tokStep_foldl (lines : List (Option TokenUsage)) :
    ∀ st : Option (Nat × Nat × Nat) × Nat,
      lines.foldl tokStep st =
        ((match (lines.filterMap id).getLast? with
          | some u =>
            some (u.input_tokens, u.cache_creation_input_tokens, u.cache_read_input_tokens)
          | none => st.1),
         st.2 + ((lines.filterMap id).map (fun u => u.output_tokens)).sum) := by
  induction lines with
  | nil => intro st; simp
  | cons l rest ih =>
    intro st
    cases l with
    | none => simpa [tokStep] using ih st
    | some u =>
      rw [List.foldl_cons, ih (tokStep st (some u))]
      have hfm : (some u :: rest).filterMap id = u :: rest.filterMap id := by simp
      rw [hfm, getLast?_cons_getD]
      cases h : (rest.filterMap id).getLast? with
      | none => simp [tokStep, h, Nat.add_assoc]
      | some v => simp [tokStep, h, Nat.add_assoc]

theorem runW_stopped_silent :
    ∀ acts : List WAction, (∀ a ∈ acts, a ≠ WAction.start) →
      runW ⟨false, []⟩ acts = (⟨false, []⟩, []) := by
  intro acts
  induction acts with
  | nil => intro _; rfl
  | cons a rest ih =>
    intro h
    have ha : a ≠ WAction.start := h a (by simp)
    have hrest : ∀ b ∈ rest, b ≠ WAction.start := fun b hb => h b (by simp [hb])
    cases a with
    | fsEvent p => simp [runW, wstep, ih hrest]
    | timerFire p => simp [runW, wstep, ih hrest]
    | stop => simp [runW, wstep, ih hrest]
    | start => exact absurd rfl ha

theorem convStep_foldl (parse : List Char → Option StreamMessage) :
    ∀ (lines : List (List Char)) (S U : List StreamMessage),
      lines.foldl (convStep parse) (S.reverse ++ U) =
        (S ++ (lines.filterMap parse).filter
            (fun m => decide (m.type = MsgType.summary))).reverse ++
          (U ++ (lines.filterMap parse).filter
            (fun m => decide (m.type = MsgType.user) || decide (m.type = MsgType.assistant))) := by
  intro lines
  induction lines with
  | nil => intro S U; simp
  | cons l rest ih =>
    intro S U
    rw [List.foldl_cons]
    cases hp : parse l with
    | none =>
      have hstep : convStep parse (S.reverse ++ U) l = S.reverse ++ U := by
        simp [convStep, hp]
      rw [hstep, ih S U]
      simp [hp]
    | some m =>
      rcases m with ⟨mt, pl⟩
      cases mt with
      | user =>
        have hstep : convStep parse (S.reverse ++ U) l =
            S.reverse ++ (U ++ [(⟨MsgType.user, pl⟩ : StreamMessage)]) := by
          simp [convStep, hp]
        rw [hstep, ih]
        simp [hp]
      | assistant =>
        have hstep : convStep parse (S.reverse ++ U) l =
            S.reverse ++ (U ++ [(⟨MsgType.assistant, pl⟩ : StreamMessage)]) := by
          simp [convStep, hp]
        rw [hstep, ih]
        simp [hp]
      | summary =>
        have hstep : convStep parse (S.reverse ++ U) l =
            (S ++ [(⟨MsgType.summary, pl⟩ : StreamMessage)]).reverse ++ U := by
          simp [convStep, hp]
        rw [hstep, ih]
        simp [hp]
      | other =>
        have hstep : convStep parse (S.reverse ++ U) l = S.reverse ++ U := by
          simp [convStep, hp]
        rw [hstep, ih S U]
        simp [hp]

theorem closestStep_foldl (ts : Int) :
    ∀ (l : List DirFile) (b : DirFile),
      ∃ pre f post,
        b :: l = pre ++ f :: post ∧
        l.foldl (closestStep ts) (some b) = some f ∧
        (∀ g ∈ pre, (f.mtime - ts).natAbs < (g.mtime - ts).natAbs) ∧
        (∀ g ∈ b :: l, (f.mtime - ts).natAbs ≤ (g.mtime - ts).natAbs) := by
  intro l
  induction l with
  | nil =>
    intro b
    exact ⟨[], b, [], rfl, rfl, by simp, by simp⟩
  | cons x t ih =>
    intro b
    by_cases hlt : (x.mtime - ts).natAbs < (b.mtime - ts).natAbs
    · obtain ⟨pre, f, post, hdec, hfold, hpre, hmin⟩ := ih x
      have hminx : (f.mtime - ts).natAbs ≤ (x.mtime - ts).natAbs := hmin x (by simp)
      refine ⟨b :: pre, f, post, ?_, ?_, ?_, ?_⟩
      · rw [List.cons_append, ← hdec]
      · rw [List.foldl_cons]
        have hstep : closestStep ts (some b) x = some x := by
          simp [closestStep, hlt]
        rw [hstep]; exact hfold
      · intro g hg
        rcases List.mem_cons.mp hg with rfl | hg'
        · omega
        · exact hpre g hg'
      · intro g hg
        rcases List.mem_cons.mp hg with rfl | hg'
        · omega
        · exact hmin g hg'
    · obtain ⟨pre, f, post, hdec, hfold, hpre, hmin⟩ := ih b
      have hfold' : (x :: t).foldl (closestStep ts) (some b) = some f := by
        rw [List.foldl_cons]
        have hstep : closestStep ts (some b) x = some b := by
          simp [closestStep, hlt]
        rw [hstep]; exact hfold
      cases pre with
      | nil =>
        have hf : b = f ∧ t = post := by
          rw [List.nil_append] at hdec
          exact ⟨(List.cons.injEq _ _ _ _).mp hdec |>.1, (List.cons.injEq _ _ _ _).mp hdec |>.2⟩
        obtain ⟨hfb, -⟩ := hf
        subst hfb
        refine ⟨[], b, x :: t, rfl, hfold', by simp, ?_⟩
        intro g hg
        rcases List.mem_cons.mp hg with rfl | hg'
        · omega
        · rcases List.mem_cons.mp hg' with rfl | hg''
          · omega
          · exact hmin g (List.mem_cons_of_mem b hg'')
      | cons p0 pre' =>
        have hp0 : p0 = b ∧ t = pre' ++ f :: post := by
          rw [List.cons_append] at hdec
          exact ⟨((List.cons.injEq _ _ _ _).mp hdec |>.1).symm,
                 (List.cons.injEq _ _ _ _).mp hdec |>.2⟩
        obtain ⟨hp0b, ht⟩ := hp0
        have hfb : (f.mtime - ts).natAbs < (b.mtime - ts).natAbs := by
          have := hpre p0 (by simp)
          rw [hp0b] at this
          exact this
        refine ⟨b :: x :: pre', f, post, ?_, hfold', ?_, ?_⟩
        · rw [ht]; simp
        · intro g hg
          rcases List.mem_cons.mp hg with rfl | hg'
          · exact hfb
          · rcases List.mem_cons.mp hg' with rfl | hg''
            · omega
            · exact hpre g (List.mem_cons_of_mem p0 hg'')
        · intro g hg
          rcases List.mem_cons.mp hg with rfl | hg'
          · exact hmin g (List.mem_cons_self _ _)
          · rcases List.mem_cons.mp hg' with rfl | hg''
            · omega
            · exact hmin g (List.mem_cons_of_mem b hg'')

/-! ## Claim theorems -/

/-- C8: `encodeProjectPath` is pure, total and deterministic — equal inputs
yield equal outputs, and the output is the input with every `/` and `.`
character replaced by `-` — and it collides on distinct inputs:
`encodeProjectPath "app.name" = encodeProjectPath "app/name"`. -/
theorem encodeProjectPath_pure_collides :
    (∀ s t : String, s = t → encodeProjectPath s = encodeProjectPath t) ∧
    (∀ s : String, (encodeProjectPath s).data =
      s.data.map (fun c => if c = '/' || c = '.' then '-' else c)) ∧
    encodeProjectPath ("app.name") = encodeProjectPath ("app/name") :=
  ⟨fun _ _ h => by rw [h], fun _ => rfl, by decide⟩

/-- Witness for C8 at the concrete inputs of the claim. -/
theorem encodeProjectPath_pure_collides_witness :
    encodeProjectPath ("app.name") = encodeProjectPath ("app.name") ∧
    encodeProjectPath ("app.name") = encodeProjectPath ("app/name") :=
  ⟨encodeProjectPath_pure_collides.1 ("app.name") ("app.name") rfl,
   encodeProjectPath_pure_collides.2.2⟩

/-- C9: after `ClaudeWatcher.stop()` returns, no `historyChange`,
`sessionChange` or `projectChange` event is ever emitted: `stop` itself emits
nothing, cancels every pending debounce timer and releases the watch handle,
and no subsequent run of filesystem events, timer firings or further stops
(i.e. any action sequence not containing `start`) produces an emission. -/
theorem ClaudeWatcher_stop_no_emission (s : WState) (acts : List WAction)
    (h : ∀ a ∈ acts, a ≠ WAction.start) :
    (wstep s WAction.stop).2 = [] ∧
    (runW (wstep s WAction.stop).1 acts).2 = [] := by
  refine ⟨rfl, ?_⟩
  have hs : (wstep s WAction.stop).1 = ⟨false, []⟩ := rfl
  rw [hs, runW_stopped_silent acts h]

/-- Witness for C9: a concrete stopped watcher driven by a filesystem event
and a timer firing emits nothing. -/
theorem ClaudeWatcher_stop_no_emission_witness :
    (wstep ⟨true, ["a/b.jsonl"]⟩ WAction.stop).2 = [] ∧
    (runW (wstep ⟨true, ["a/b.jsonl"]⟩ WAction.stop).1
      [WAction.fsEvent ("a/b.jsonl"), WAction.timerFire ("a/b.jsonl"), WAction.stop]).2 = [] :=
  ClaudeWatcher_stop_no_emission ⟨true, ["a/b.jsonl"]⟩
    [WAction.fsEvent ("a/b.jsonl"), WAction.timerFire ("a/b.jsonl"), WAction.stop]
    (by decide)

/-- C3 counterexample: appending a well-formed usage-bearing line whose
`output_tokens` is `0` (here `{input_tokens: 5, output_tokens: 0, ...}` to an
empty transcript) does not STRICTLY increase `outputTokens`, refuting the
claim's unconditional strict-increase clause. -/
theorem getSessionTokens_zero_output_counterexample :
    ¬ ((getSessionTokens []).outputTokens <
        (getSessionTokens ([] ++ [some ⟨5, 0, 0, 0⟩])).outputTokens) := by
  decide

/-- C3 as amended: `inputTokens` is exactly the last usage-bearing line's
`input + cache_creation + cache_read` sum (`0` with no usage at all) and
`outputTokens` is the sum of `output_tokens` over all usage-bearing lines;
appending one usage-bearing line increases `outputTokens` by exactly that
line's output tokens — strictly so when that count is positive — and sets
`inputTokens` to exactly that line's input+cache-creation+cache-read sum. -/
theorem getSessionTokens_accounting :
    (∀ lines : List (Option TokenUsage),
      (getSessionTokens lines).inputTokens =
        (match (lines.filterMap id).getLast? with
         | some u => u.input_tokens + u.cache_creation_input_tokens + u.cache_read_input_tokens
         | none => 0) ∧
      (getSessionTokens lines).outputTokens =
        ((lines.filterMap id).map (fun u => u.output_tokens)).sum) ∧
    (∀ (lines : List (Option TokenUsage)) (u : TokenUsage),
      (getSessionTokens (lines ++ [some u])).outputTokens =
        (getSessionTokens lines).outputTokens + u.output_tokens ∧
      (getSessionTokens (lines ++ [some u])).inputTokens =
        u.input_tokens + u.cache_creation_input_tokens + u.cache_read_input_tokens ∧
      (0 < u.output_tokens →
        (getSessionTokens lines).outputTokens <
          (getSessionTokens (lines ++ [some u])).outputTokens)) := by
  have hchar : ∀ lines : List (Option TokenUsage),
      (getSessionTokens lines).inputTokens =
        (match (lines.filterMap id).getLast? with
         | some u => u.input_tokens + u.cache_creation_input_tokens + u.cache_read_input_tokens
         | none => 0) ∧
      (getSessionTokens lines).outputTokens =
        ((lines.filterMap id).map (fun u => u.output_tokens)).sum := by
    intro lines
    unfold getSessionTokens
    rw [tokStep_foldl lines (none, 0)]
    cases h : (lines.filterMap id).getLast? with
    | none => simp
    | some u => simp
  refine ⟨hchar, ?_⟩
  intro lines u
  have h1 := (hchar (lines ++ [some u])).1
  have h2 := (hchar (lines ++ [some u])).2
  have h3 := (hchar lines).2
  have hfm : (lines ++ [some u]).filterMap id = lines.filterMap id ++ [u] := by simp
  rw [hfm] at h1 h2
  rw [List.getLast?_concat] at h1
  simp only [List.map_append, List.sum_append, List.map_cons, List.map_nil,
    List.sum_cons, List.sum_nil] at h2
  refine ⟨?_, h1, ?_⟩
  · rw [h2, h3]; omega
  · intro hpos
    rw [h2, h3]; omega

/-- Witness for C3's amended theorem at a concrete transcript and appended
usage line. -/
theorem getSessionTokens_accounting_witness :
    (getSessionTokens ([some ⟨1, 2, 3, 4⟩, none] ++ [some ⟨7, 5, 11, 13⟩])).outputTokens =
      (getSessionTokens [some ⟨1, 2, 3, 4⟩, none]).outputTokens + 5 ∧
    (getSessionTokens ([some ⟨1, 2, 3, 4⟩, none] ++ [some ⟨7, 5, 11, 13⟩])).inputTokens =
      7 + 11 + 13 ∧
    (getSessionTokens [some ⟨1, 2, 3, 4⟩, none]).outputTokens <
      (getSessionTokens ([some ⟨1, 2, 3, 4⟩, none] ++ [some ⟨7, 5, 11, 13⟩])).outputTokens := by
  have h := getSessionTokens_accounting.2 [some ⟨1, 2, 3, 4⟩, none] ⟨7, 5, 11, 13⟩
  exact ⟨h.1, h.2.1, h.2.2 (by decide)⟩

/-- C5: the full read returns the `user`/`assistant` lines in file order with
the `summary` lines placed at the front regardless of physical position
(multiple summaries end up reversed at the front, each having been unshifted),
malformed lines skipped; a file with the three lines summary, user, assistant
yields exactly `[summary, user, assistant]`; a missing file yields the empty
sequence rather than an error. -/
theorem getConversation_full_read :
    (∀ (parse : List Char → Option StreamMessage) (content : List Char),
      getConversation parse content =
        ((((splitNl (trimChars content)).filter (fun l => !l.isEmpty)).filterMap parse).filter
            (fun m => decide (m.type = MsgType.summary))).reverse ++
          (((splitNl (trimChars content)).filter (fun l => !l.isEmpty)).filterMap parse).filter
            (fun m => decide (m.type = MsgType.user) || decide (m.type = MsgType.assistant))) ∧
    getConversation cparse exampleConversation =
      [⟨MsgType.summary, 1⟩, ⟨MsgType.user, 0⟩, ⟨MsgType.assistant, 3⟩] ∧
    (∀ parse : List Char → Option StreamMessage, getConversationFile parse none = []) :=
  ⟨fun parse content => by
      have h := convStep_foldl parse
        ((splitNl (trimChars content)).filter (fun l => !l.isEmpty)) [] []
      simpa [getConversation] using h,
   by decide,
   fun _ => rfl⟩

/-- C7: for a history entry lacking a session id, `findSessionByTimestamp`
selects, among the `.jsonl` files of the project directory, the first file in
directory order whose mtime minimises the absolute difference from the entry
timestamp: the result is that file's basename, it strictly beats every file
listed before it, and it is no worse than every `.jsonl` file in the listing;
an empty (or `.jsonl`-free) listing yields `none`. -/
theorem findSessionByTimestamp_min_absdiff (files : List DirFile) (ts : Int) :
    (files.filter (fun f => endsWithStr f.name (".jsonl")) = [] →
      findSessionByTimestamp files ts = none) ∧
    (∀ b l, files.filter (fun f => endsWithStr f.name (".jsonl")) = b :: l →
      ∃ pre f post,
        files.filter (fun f => endsWithStr f.name (".jsonl")) = pre ++ f :: post ∧
        findSessionByTimestamp files ts = some (basenameJsonl f.name) ∧
        (∀ g ∈ pre, (f.mtime - ts).natAbs < (g.mtime - ts).natAbs) ∧
        (∀ g ∈ files.filter (fun f => endsWithStr f.name (".jsonl")),
          (f.mtime - ts).natAbs ≤ (g.mtime - ts).natAbs)) := by
  constructor
  · intro h
    unfold findSessionByTimestamp
    rw [h]
    rfl
  · intro b l h
    obtain ⟨pre, f, post, hdec, hfold, hpre, hmin⟩ := closestStep_foldl ts l b
    refine ⟨pre, f, post, by rw [h, hdec], ?_, hpre, ?_⟩
    · unfold findSessionByTimestamp
      rw [h]
      dsimp only
      rw [List.foldl_cons]
      have hstep : closestStep ts none b = some b := rfl
      rw [hstep, hfold]
      rfl
    · intro g hg
      rw [h] at hg
      exact hmin g hg

/-- Witness for C7 at the spec's example: timestamp 1000, directory holding
`s1.jsonl` (mtime 999) and `s2.jsonl` (mtime 1050); the resolved session is
`s1`. -/
theorem findSessionByTimestamp_min_absdiff_witness :
    findSessionByTimestamp [⟨"s1.jsonl", 999⟩, ⟨"s2.jsonl", 1050⟩] 1000 = some ("s1") ∧
    (∃ pre f post,
      ([⟨"s1.jsonl", 999⟩, ⟨"s2.jsonl", 1050⟩] : List DirFile).filter
          (fun f => endsWithStr f.name (".jsonl")) = pre ++ f :: post ∧
      findSessionByTimestamp [⟨"s1.jsonl", 999⟩, ⟨"s2.jsonl", 1050⟩] 1000 =
        some (basenameJsonl f.name) ∧
      (∀ g ∈ pre, (f.mtime - 1000).natAbs < (g.mtime - 1000).natAbs) ∧
      (∀ g ∈ ([⟨"s1.jsonl", 999⟩, ⟨"s2.jsonl", 1050⟩] : List DirFile).filter
          (fun f => endsWithStr f.name (".jsonl")),
        (f.mtime - 1000).natAbs ≤ (g.mtime - 1000).natAbs)) :=
  ⟨by decide,
   (findSessionByTimestamp_min_absdiff [⟨"s1.jsonl", 999⟩, ⟨"s2.jsonl", 1050⟩] 1000).2
     ⟨"s1.jsonl", 999⟩ [⟨"s2.jsonl", 1050⟩] (by decide)⟩

/-! ## Search (C4) -/

theorem collectMatches_length_le (q lq : String) :
    ∀ (lines : List (Option SearchMessage)) (acc : List SearchMatch),
      acc.length ≤ 3 → (collectMatches q lq lines acc).length ≤ 3 := by
  intro lines
  induction lines with
  | nil => intro acc h; simpa [collectMatches] using h
  | cons l rest ih =>
    intro acc h
    simp only [collectMatches]
    by_cases h3 : 3 ≤ acc.length
    · rw [if_pos h3]; exact h
    · rw [if_neg h3]
      cases l with
      | none => exact ih acc h
      | some m =>
        dsimp only
        by_cases hty : m.type = MsgType.user ∨ m.type = MsgType.assistant
        · rw [if_pos hty]
          by_cases hin : containsSubstring (toLowerStr (extractTextContent m)) lq
          · rw [if_pos hin]
            exact ih _ (by simp; omega)
          · rw [if_neg hin]; exact ih acc h
        · rw [if_neg hty]; exact ih acc h

theorem searchLoop_matches_le (sessions : List SessionRec) (q lq : String) (mx : Nat) :
    ∀ (fi : List (String × List (Option SearchMessage))) (results : List SearchResult),
      (∀ r ∈ results, r.matches'.length ≤ 3) →
      ∀ r ∈ searchLoop sessions q lq mx fi results, r.matches'.length ≤ 3 := by
  intro fi
  induction fi with
  | nil => intro results h r hr; exact h r (by simpa [searchLoop] using hr)
  | cons e rest ih =>
    intro results h r hr
    obtain ⟨sid, fl⟩ := e
    simp only [searchLoop] at hr
    by_cases hmx : mx ≤ results.length
    · rw [if_pos hmx] at hr; exact h r hr
    · rw [if_neg hmx] at hr
      cases hs : sessionLookup sessions sid with
      | none => rw [hs] at hr; exact ih results h r hr
      | some sess =>
        rw [hs] at hr
        dsimp only at hr
        by_cases hempty : (collectMatches q lq fl []).isEmpty
        · rw [if_pos hempty] at hr; exact ih results h r hr
        · rw [if_neg hempty] at hr
          refine ih _ ?_ r hr
          intro r' hr'
          rcases List.mem_append.mp hr' with h1 | h2
          · exact h r' h1
          · have : r' = ⟨sid, sess.display, sess.projectName, sess.project, sess.timestamp,
                collectMatches q lq fl []⟩ := by simpa using h2
            rw [this]
            exact collectMatches_length_le q lq fl [] (by simp)

theorem mem_insertDesc (r x : SearchResult) :
    ∀ l, r ∈ insertDesc x l → r = x ∨ r ∈ l := by
  intro l
  induction l with
  | nil => intro h; simpa [insertDesc] using h
  | cons y ys ih =>
    intro h
    simp only [insertDesc] at h
    by_cases hc : y.timestamp < x.timestamp
    · rw [if_pos hc] at h
      rcases List.mem_cons.mp h with rfl | h2
      · exact Or.inl rfl
      · exact Or.inr h2
    · rw [if_neg hc] at h
      rcases List.mem_cons.mp h with rfl | h2
      · exact Or.inr (List.mem_cons_self _ _)
      · rcases ih h2 with h3 | h4
        · exact Or.inl h3
        · exact Or.inr (List.mem_cons_of_mem _ h4)

theorem mem_sortByTimestampDesc (r : SearchResult) :
    ∀ l, r ∈ sortByTimestampDesc l → r ∈ l := by
  intro l
  induction l with
  | nil => intro h; simp [sortByTimestampDesc] at h
  | cons x xs ih =>
    intro h
    have h1 : r ∈ insertDesc x (sortByTimestampDesc xs) := by
      simpa [sortByTimestampDesc] using h
    rcases mem_insertDesc r x _ h1 with rfl | h2
    · exact List.mem_cons_self _ _
    · exact List.mem_cons_of_mem _ (ih h2)

/-- C4 counterexample: the 2-character query `hi` is NOT rejected by
construction — `query.length < 2` does not hold at length 2 — so with a
transcript containing `hi` the search returns a (single) result. -/
theorem searchSessions_two_char_counterexample :
    searchSessions ("hi") 20 demoSessions demoIndexHi ≠ [] ∧
    (searchSessions ("hi") 20 demoSessions demoIndexHi).length = 1 := by
  constructor
  · decide
  · decide

/-- C4 as amended: queries SHORTER than 2 characters return no results by
construction regardless of content; every returned result carries at most 3
snippet matches; and the 3-character query `hi!`, matching text in exactly one
message of the demo state, returns exactly one result. -/
theorem searchSessions_contract :
    (∀ (query : String) (maxResults : Nat) (sessions : List SessionRec)
        (fileIndex : List (String × List (Option SearchMessage))),
      query.length < 2 → searchSessions query maxResults sessions fileIndex = []) ∧
    (∀ (query : String) (maxResults : Nat) (sessions : List SessionRec)
        (fileIndex : List (String × List (Option SearchMessage)))
        (r : SearchResult),
      r ∈ searchSessions query maxResults sessions fileIndex →
        r.matches'.length ≤ 3) ∧
    (searchSessions ("hi!") 20 demoSessions demoIndexBang).length = 1 := by
  refine ⟨?_, ?_, by decide⟩
  · intro query maxResults sessions fileIndex h
    unfold searchSessions
    rw [if_pos (Or.inr h)]
  · intro query maxResults sessions fileIndex r hr
    unfold searchSessions at hr
    by_cases hshort : query = "" ∨ query.length < 2
    · rw [if_pos hshort] at hr; exact absurd hr (List.not_mem_nil r)
    · rw [if_neg hshort] at hr
      have h1 := mem_sortByTimestampDesc r _ hr
      exact searchLoop_matches_le sessions query (toLowerStr query) maxResults fileIndex []
        (by simp) r h1

/-- Witness for C4's amended theorem: a 1-character query returns nothing, and
the single result of the `hi!` scenario carries at most 3 matches. -/
theorem searchSessions_contract_witness :
    searchSessions ("h") 20 demoSessions demoIndexHi = [] ∧
    (⟨"s1", "fix bug", "app", "/a/app", 5,
        [⟨"say hi! now", MsgType.user⟩]⟩ : SearchResult).matches'.length ≤ 3 :=
  ⟨searchSessions_contract.1 ("h") 20 demoSessions demoIndexHi (by decide),
   searchSessions_contract.2.1 ("hi!") 20 demoSessions demoIndexBang
     ⟨"s1", "fix bug", "app", "/a/app", 5, [⟨"say hi! now", MsgType.user⟩]⟩ (by decide)⟩

/-! ## Fork reconstruction (C6) -/

theorem walk_cons (msgs : List BranchMessage) (choices : List (String × String)) :
    ∀ (fuel : Nat) (cur : BranchMessage), ∃ t, walk msgs choices fuel cur = cur :: t := by
  intro fuel cur
  cases fuel with
  | zero => exact ⟨[], rfl⟩
  | succ f =>
    cases h : walkNext msgs choices cur with
    | none => exact ⟨[], by simp [walk, h]⟩
    | some next => exact ⟨walk msgs choices f next, by simp [walk, h]⟩

theorem walkNext_mem (msgs : List BranchMessage) (choices : List (String × String))
    (cur next : BranchMessage) (h : walkNext msgs choices cur = some next) :
    ∃ u, cur.uuid = some u ∧ next ∈ childrenOf msgs u := by
  cases hu : cur.uuid with
  | none => simp only [walkNext, hu] at h; exact absurd h (by simp)
  | some u =>
    simp only [walkNext, hu] at h
    refine ⟨u, rfl, ?_⟩
    cases hc : childrenOf msgs u with
    | nil => simp only [hc] at h; exact absurd h (by simp)
    | cons c cs =>
      simp only [hc] at h
      cases hl : lookupChoice choices u with
      | none =>
        simp only [hl, Option.some.injEq] at h
        rw [← h]
        exact List.getLast_mem _
      | some chosen =>
        simp only [hl, Option.some.injEq] at h
        cases hf : (c :: cs).find? (fun m => m.uuid = some chosen) with
        | none =>
          simp only [hf, Option.getD_none] at h
          rw [← h]
          exact List.getLast_mem _
        | some x =>
          simp only [hf, Option.getD_some] at h
          rw [← h]
          exact List.mem_of_find?_eq_some hf

theorem walk_reaches_leaf (msgs : List BranchMessage) (choices : List (String × String))
    (rank : BranchMessage → Nat)
    (hrank : ∀ (m c : BranchMessage) (u : String),
      m.uuid = some u → c ∈ childrenOf msgs u → rank c < rank m) :
    ∀ (fuel : Nat) (cur : BranchMessage), rank cur < fuel →
      ChainedB msgs (walk msgs choices fuel cur) = true ∧
      (∀ x, (walk msgs choices fuel cur).getLast? = some x →
        ∀ u, x.uuid = some u → childrenOf msgs u = []) := by
  intro fuel
  induction fuel with
  | zero => intro cur h; exact absurd h (Nat.not_lt_zero _)
  | succ f ih =>
    intro cur h
    cases hn : walkNext msgs choices cur with
    | none =>
      have hw : walk msgs choices (f + 1) cur = [cur] := by simp [walk, hn]
      rw [hw]
      refine ⟨rfl, ?_⟩
      intro x hx u hu
      have hxc : cur = x := by simpa using hx
      subst hxc
      simp only [walkNext, hu] at hn
      cases hc : childrenOf msgs u with
      | nil => rfl
      | cons c cs => simp only [hc] at hn; exact absurd hn (by simp)
    | some next =>
      have hw : walk msgs choices (f + 1) cur = cur :: walk msgs choices f next := by
        simp [walk, hn]
      obtain ⟨u, hu, hmem⟩ := walkNext_mem msgs choices cur next hn
      have hr : rank next < f := by
        have := hrank cur next u hu hmem
        omega
      obtain ⟨hch, hlf⟩ := ih next hr
      obtain ⟨t, ht⟩ := walk_cons msgs choices f next
      rw [hw]
      constructor
      · rw [ht]
        have hch2 : ChainedB msgs (next :: t) = true := by rw [← ht]; exact hch
        simp [ChainedB, hu, hmem, hch2]
      · intro x hx u' hu'
        rw [ht, List.getLast?_cons_cons] at hx
        exact hlf x (by rw [ht]; exact hx) u' hu'

/-- C6: for a message list forming a tree with one root `r` (with uuid `ru`)
whose children list at `ru` is `[a, b]` — tree-ness is expressed by a rank
function decreasing from parents to children, bounded by the list length —
`buildBranch` with no recorded choice returns a chained path `r :: b :: …`
through the LAST-listed child `b` whose final element has no children (the
leaf of `b`'s subtree); recording the choice `(ru, ua)` for the fork makes
the path pass through `a` instead; and whenever no root exists (including the
empty list and every-message-has-a-parent inputs), the original flat sequence
is returned unchanged. -/
theorem buildBranch_fork_reconstruction :
    (∀ (msgs : List BranchMessage) (choices : List (String × String)),
      rootsOf msgs = [] → buildBranch msgs choices = msgs) ∧
    (∀ (msgs : List BranchMessage) (r a b : BranchMessage) (ru : String)
        (rank : BranchMessage → Nat),
      rootsOf msgs = [r] → r.uuid = some ru → childrenOf msgs ru = [a, b] →
      (∀ (m c : BranchMessage) (u : String),
        m.uuid = some u → c ∈ childrenOf msgs u → rank c < rank m) →
      rank r < msgs.length →
      ((∃ t, buildBranch msgs [] = r :: b :: t) ∧
       ChainedB msgs (buildBranch msgs []) = true ∧
       (∀ x, (buildBranch msgs []).getLast? = some x →
         ∀ u, x.uuid = some u → childrenOf msgs u = []) ∧
       (∀ ua, a.uuid = some ua →
         ∃ t, buildBranch msgs [(ru, ua)] = r :: a :: t))) := by
  constructor
  · intro msgs choices h
    cases msgs with
    | nil => rfl
    | cons m ms => simp [buildBranch, h]
  · intro msgs r a b ru rank h1 h2 h3 hrank hrb
    have hne : msgs ≠ [] := by
      intro hh; rw [hh] at h1; simp [rootsOf] at h1
    have hbb : ∀ choices, buildBranch msgs choices = walk msgs choices msgs.length r := by
      intro c
      cases msgs with
      | nil => exact absurd rfl hne
      | cons m ms => simp [buildBranch, h1]
    obtain ⟨f, hf⟩ : ∃ f, msgs.length = f + 1 := by
      cases msgs with
      | nil => exact absurd rfl hne
      | cons m ms => exact ⟨ms.length, rfl⟩
    have hwn : walkNext msgs [] r = some b := by
      simp only [walkNext, h2, h3]
      rfl
    have hwalk : buildBranch msgs [] = r :: walk msgs [] f b := by
      rw [hbb [], hf]
      simp [walk, hwn]
    obtain ⟨t0, ht0⟩ := walk_cons msgs [] f b
    refine ⟨⟨t0, by rw [hwalk, ht0]⟩, ?_, ?_, ?_⟩
    · have hc := (walk_reaches_leaf msgs [] rank hrank msgs.length r hrb).1
      rw [hbb []]
      exact hc
    · have hl := (walk_reaches_leaf msgs [] rank hrank msgs.length r hrb).2
      rw [hbb []]
      exact hl
    · intro ua hua
      have hwn2 : walkNext msgs [(ru, ua)] r = some a := by
        have hlc : lookupChoice [(ru, ua)] ru = some ua := by
          simp [lookupChoice]
        have hfind : ([a, b].find? (fun m => decide (m.uuid = some ua))) = some a :=
          List.find?_cons_of_pos _ (by simp [hua])
        simp only [walkNext, h2, h3, hlc, hfind, Option.getD_some]
      obtain ⟨t1, ht1⟩ := walk_cons msgs [(ru, ua)] f a
      refine ⟨t1, ?_⟩
      rw [hbb [(ru, ua)], hf]
      simp [walk, hwn2, ht1]

/-- Witness for C6 on the concrete one-root, two-children message list. -/
theorem buildBranch_fork_reconstruction_witness :
    (∃ t, buildBranch demoMsgs [] = demoR :: demoB :: t) ∧
    ChainedB demoMsgs (buildBranch demoMsgs []) = true ∧
    (∀ x, (buildBranch demoMsgs []).getLast? = some x →
      ∀ u, x.uuid = some u → childrenOf demoMsgs u = []) ∧
    (∀ ua, demoA.uuid = some ua →
      ∃ t, buildBranch demoMsgs [("r", ua)] = demoR :: demoA :: t) := by
  have hrank : ∀ (m c : BranchMessage) (u : String),
      m.uuid = some u → c ∈ childrenOf demoMsgs u → demoRank c < demoRank m := by
    intro m c u hm hc
    obtain ⟨hcm, hcp⟩ := List.mem_filter.mp hc
    have hcp' : c.parentUuid = some u := by simpa using hcp
    have hcm' : c = demoR ∨ c = demoA ∨ c = demoB := by simpa [demoMsgs] using hcm
    rcases hcm' with rfl | rfl | rfl
    · simp [demoR] at hcp'
    · have hu : u = "r" := by
        have : some ("r") = some u := by simpa [demoA] using hcp'
        exact (Option.some.inj this).symm
      subst hu
      simp [demoRank, demoA, hm]
    · have hu : u = "r" := by
        have : some ("r") = some u := by simpa [demoB] using hcp'
        exact (Option.some.inj this).symm
      subst hu
      simp [demoRank, demoB, hm]
  exact buildBranch_fork_reconstruction.2 demoMsgs demoR demoA demoB "r" demoRank
    (by decide) (by decide) (by decide) hrank (by decide)

/-! ## Incremental reading (C1, C2, C10) -/


theorem utf8Len_nil : utf8Len [] = 0 := rfl

theorem utf8Len_cons (c : Char) (l : List Char) :
    utf8Len (c :: l) = c.utf8Size + utf8Len l := by
  simp [utf8Len]

theorem utf8Len_append (a b : List Char) :
    utf8Len (a ++ b) = utf8Len a + utf8Len b := by
  simp [utf8Len]

theorem utf8Len_pos (l : List Char) (h : l ≠ []) : 0 < utf8Len l := by
  cases l with
  | nil => exact absurd rfl h
  | cons c t =>
    rw [utf8Len_cons]
    have := Char.utf8Size_pos c
    omega

theorem segsBytes_nil : segsBytes [] = 0 := rfl

theorem segsBytes_cons (l : List Char) (ls : List (List Char)) :
    segsBytes (l :: ls) = (utf8Len l + 1) + segsBytes ls := by
  simp [segsBytes]

theorem byteDrop_zero (l : List Char) : byteDrop 0 l = l := by
  cases l <;> simp [byteDrop]

theorem byteDrop_utf8Len_append : ∀ p s : List Char, byteDrop (utf8Len p) (p ++ s) = s := by
  intro p
  induction p with
  | nil => intro s; simpa using byteDrop_zero s
  | cons c t ih =>
    intro s
    have hpos := Char.utf8Size_pos c
    show byteDrop (utf8Len (c :: t)) (c :: (t ++ s)) = s
    unfold byteDrop
    rw [if_neg (by rw [utf8Len_cons]; omega)]
    have h2 : utf8Len (c :: t) - c.utf8Size = utf8Len t := by rw [utf8Len_cons]; omega
    rw [h2]
    exact ih s

theorem byteDrop_ascii : ∀ (l : List Char) (n : Nat), (∀ c ∈ l, c.utf8Size = 1) →
    byteDrop n l = l.drop n := by
  intro l
  induction l with
  | nil => intro n _; simp [byteDrop]
  | cons c t ih =>
    intro n h
    cases n with
    | zero => simp [byteDrop]
    | succ k =>
      unfold byteDrop
      rw [if_neg (by omega)]
      have hc : c.utf8Size = 1 := h c (by simp)
      rw [hc]
      have : k + 1 - 1 = k := by omega
      rw [this, List.drop_succ_cons]
      exact ih k (fun c' hc' => h c' (by simp [hc']))

theorem utf8Len_ascii : ∀ l : List Char, (∀ c ∈ l, c.utf8Size = 1) →
    utf8Len l = l.length := by
  intro l
  induction l with
  | nil => intro _; rfl
  | cons c t ih =>
    intro h
    rw [utf8Len_cons, h c (by simp), ih (fun c' hc' => h c' (by simp [hc']))]
    simp [Nat.add_comm]

theorem splitNl_ne_nil (s : List Char) : splitNl s ≠ [] := by
  cases s with
  | nil => simp [splitNl]
  | cons c t =>
    unfold splitNl
    by_cases h : c = '\n'
    · simp [h]
    · rw [if_neg h]
      cases hs : splitNl t with
      | nil => simp
      | cons a as => simp

theorem splitNl_eq_nil_singleton : ∀ s : List Char, s ≠ [] → splitNl s ≠ [[]] := by
  intro s h
  cases s with
  | nil => exact absurd rfl h
  | cons c t =>
    unfold splitNl
    by_cases hc : c = '\n'
    · rw [if_pos hc]
      intro hh
      have : splitNl t = [] := by
        have := (List.cons.injEq _ _ _ _).mp hh
        exact this.2
      exact absurd this (splitNl_ne_nil t)
    · rw [if_neg hc]
      cases hs : splitNl t with
      | nil => exact absurd hs (splitNl_ne_nil t)
      | cons a as =>
        intro hh
        have h1 := (List.cons.injEq _ _ _ _).mp hh
        exact absurd h1.1 (by simp)

theorem splitNl_append_newline : ∀ q s : List Char,
    splitNl (q ++ '\n' :: s) = splitNl q ++ splitNl s := by
  intro q
  induction q with
  | nil => intro s; simp [splitNl]
  | cons c q' ih =>
    intro s
    show splitNl (c :: (q' ++ '\n' :: s)) = splitNl (c :: q') ++ splitNl s
    by_cases h : c = '\n'
    · subst h
      simp [splitNl, ih s]
    · cases hs : splitNl q' with
      | nil => exact absurd hs (splitNl_ne_nil q')
      | cons a as =>
        have h1 : splitNl (q' ++ '\n' :: s) = a :: (as ++ splitNl s) := by
          rw [ih s, hs]; rfl
        simp [splitNl, h, h1, hs]

theorem segsBytes_splitNl : ∀ s : List Char, segsBytes (splitNl s) = utf8Len s + 1 := by
  intro s
  induction s with
  | nil => rfl
  | cons c t ih =>
    by_cases h : c = '\n'
    · subst h
      have hnl : ('\n').utf8Size = 1 := rfl
      have h1 : splitNl ('\n' :: t) = [] :: splitNl t := by simp [splitNl]
      rw [h1, segsBytes_cons, utf8Len_cons, ih, hnl, utf8Len_nil]
      omega
    · cases hs : splitNl t with
      | nil => exact absurd hs (splitNl_ne_nil t)
      | cons a as =>
        have h1 : splitNl (c :: t) = (c :: a) :: as := by simp [splitNl, h, hs]
        rw [h1, segsBytes_cons, utf8Len_cons, utf8Len_cons]
        rw [hs, segsBytes_cons] at ih
        omega

theorem segsBytes_pos (l : List Char) (ls : List (List Char)) :
    1 ≤ segsBytes (l :: ls) := by
  rw [segsBytes_cons]; omega

theorem getLast?_cons_ne_nil {α : Type} (a : α) {l : List α} (h : l ≠ []) :
    (a :: l).getLast? = l.getLast? := by
  cases l with
  | nil => exact absurd rfl h
  | cons b t => exact List.getLast?_cons_cons

theorem dropLast_cons_ne_nil {α : Type} (a : α) {l : List α} (h : l ≠ []) :
    (a :: l).dropLast = a :: l.dropLast := by
  cases l with
  | nil => exact absurd rfl h
  | cons b t => rfl

theorem rlOf_cons (l : List Char) {B : List (List Char)} (hB : B ≠ []) (hB1 : B ≠ [[]]) :
    rlOf (l :: B) = l :: rlOf B := by
  unfold rlOf
  by_cases hlast : B.getLast? = some []
  · have hlenB : 1 < B.length := by
      cases B with
      | nil => exact absurd rfl hB
      | cons x xs =>
        cases xs with
        | nil =>
          have hx : x = [] := by simpa using hlast
          exact absurd (by rw [hx]) hB1
        | cons y ys => simp
    have hcond : 1 < (l :: B).length ∧ (l :: B).getLast? = some [] := by
      constructor
      · simp
        cases B with
        | nil => exact absurd rfl hB
        | cons x xs => simp
      · rw [getLast?_cons_ne_nil l hB]; exact hlast
    rw [if_pos hcond, if_pos ⟨hlenB, hlast⟩, dropLast_cons_ne_nil l hB]
  · have hcond : ¬ (1 < (l :: B).length ∧ (l :: B).getLast? = some []) := by
      intro hh
      rw [getLast?_cons_ne_nil l hB] at hh
      exact hlast hh.2
    have hcond2 : ¬ (1 < B.length ∧ B.getLast? = some []) := fun hh => hlast hh.2
    rw [if_neg hcond, if_neg hcond2]

theorem rlOf_concat_nil {X : List (List Char)} (hX : X ≠ []) :
    rlOf (X ++ [[]]) = X := by
  unfold rlOf
  have hcond : 1 < (X ++ [[]]).length ∧ (X ++ [[]]).getLast? = some [] := by
    constructor
    · rw [List.length_append]
      cases X with
      | nil => exact absurd rfl hX
      | cons a as => simp
    · rw [List.getLast?_concat]
  rw [if_pos hcond, List.dropLast_concat]

theorem rlOf_append (A : List (List Char)) {B : List (List Char)}
    (hB : B ≠ []) (hB1 : B ≠ [[]]) :
    rlOf (A ++ B) = A ++ rlOf B := by
  induction A with
  | nil => simp
  | cons a A' ih =>
    have hAB : A' ++ B ≠ [] := by
      intro hh
      exact hB (List.append_eq_nil.mp hh).2
    have hAB1 : A' ++ B ≠ [[]] := by
      intro hh
      have hlen := congrArg List.length hh
      rw [List.length_append] at hlen
      have hBlen : 1 ≤ B.length := by
        cases B with
        | nil => exact absurd rfl hB
        | cons x xs => simp
      simp at hlen
      have hA' : A' = [] := List.length_eq_zero.mp (by omega)
      rw [hA', List.nil_append] at hh
      exact hB1 hh
    rw [List.cons_append, rlOf_cons a hAB hAB1, ih, List.cons_append]

theorem streamConsume_characterize (parse : List Char → Option StreamMessage) :
    ∀ segs : List (List Char),
      streamConsume parse segs =
        ((((segs.takeWhile (okLine parse)).filter (fun l => !(isBlank l))).filterMap parse).filter
           (fun m => decide (m.type = MsgType.user) || decide (m.type = MsgType.assistant)),
         segsBytes (segs.takeWhile (okLine parse))) := by
  intro segs
  induction segs with
  | nil => rfl
  | cons l rest ih =>
    by_cases hb : isBlank l
    · have hok : okLine parse l = true := by simp [okLine, hb]
      have hs : streamConsume parse (l :: rest) =
          ((streamConsume parse rest).1,
           (utf8Len l + 1) + (streamConsume parse rest).2) := by
        simp [streamConsume, hb]
      rw [hs, ih]
      simp [List.takeWhile_cons, hok, hb, segsBytes_cons]
    · cases hp : parse l with
      | none =>
        have hok : okLine parse l = false := by simp [okLine, hb, hp]
        have hs : streamConsume parse (l :: rest) = ([], 0) := by
          simp [streamConsume, hb, hp]
        rw [hs]
        simp [List.takeWhile_cons, hok, segsBytes_nil]
      | some m =>
        have hok : okLine parse l = true := by simp [okLine, hb, hp]
        have hs : streamConsume parse (l :: rest) =
            ((if m.type = MsgType.user ∨ m.type = MsgType.assistant
              then m :: (streamConsume parse rest).1
              else (streamConsume parse rest).1),
             (utf8Len l + 1) + (streamConsume parse rest).2) := by
          simp [streamConsume, hb, hp]
        rw [hs, ih]
        by_cases hua : m.type = MsgType.user ∨ m.type = MsgType.assistant
        · simp [List.takeWhile_cons, hok, hb, hp, hua, List.filter_cons, segsBytes_cons]
        · obtain ⟨h1, h2⟩ := not_or.mp hua
          simp [List.takeWhile_cons, hok, hb, hp, hua, h1, h2, List.filter_cons, segsBytes_cons]

theorem streamConsume_append_ok (parse : List Char → Option StreamMessage) :
    ∀ (xs ys : List (List Char)), (∀ l ∈ xs, okLine parse l = true) →
      streamConsume parse (xs ++ ys) =
        ((streamConsume parse xs).1 ++ (streamConsume parse ys).1,
         segsBytes xs + (streamConsume parse ys).2) := by
  intro xs
  induction xs with
  | nil => intro ys _; simp [streamConsume, segsBytes_nil]
  | cons l rest ih =>
    intro ys h
    have hl : okLine parse l = true := h l (by simp)
    have hrest : ∀ l' ∈ rest, okLine parse l' = true := fun l' hl' => h l' (by simp [hl'])
    by_cases hb : isBlank l
    · have h1 : streamConsume parse (l :: (rest ++ ys)) =
          ((streamConsume parse (rest ++ ys)).1,
           (utf8Len l + 1) + (streamConsume parse (rest ++ ys)).2) := by
        simp [streamConsume, hb]
      have h2 : streamConsume parse (l :: rest) =
          ((streamConsume parse rest).1,
           (utf8Len l + 1) + (streamConsume parse rest).2) := by
        simp [streamConsume, hb]
      rw [List.cons_append, h1, h2, ih ys hrest, segsBytes_cons]
      simp [Nat.add_assoc]
    · cases hp : parse l with
      | none => simp [okLine, hb, hp] at hl
      | some m =>
        have h1 : streamConsume parse (l :: (rest ++ ys)) =
            ((if m.type = MsgType.user ∨ m.type = MsgType.assistant
              then m :: (streamConsume parse (rest ++ ys)).1
              else (streamConsume parse (rest ++ ys)).1),
             (utf8Len l + 1) + (streamConsume parse (rest ++ ys)).2) := by
          simp [streamConsume, hb, hp]
        have h2 : streamConsume parse (l :: rest) =
            ((if m.type = MsgType.user ∨ m.type = MsgType.assistant
              then m :: (streamConsume parse rest).1
              else (streamConsume parse rest).1),
             (utf8Len l + 1) + (streamConsume parse rest).2) := by
          simp [streamConsume, hb, hp]
        rw [List.cons_append, h1, h2, ih ys hrest, segsBytes_cons]
        by_cases hua : m.type = MsgType.user ∨ m.type = MsgType.assistant
        · simp [hua, Nat.add_assoc]
        · simp [hua, Nat.add_assoc]

theorem segsBytes_takeWhile_le (p : List Char → Bool) :
    ∀ segs : List (List Char), segsBytes (segs.takeWhile p) ≤ segsBytes segs := by
  intro segs
  induction segs with
  | nil => simp
  | cons l rest ih =>
    rw [List.takeWhile_cons]
    by_cases hp : p l
    · rw [if_pos hp, segsBytes_cons, segsBytes_cons]
      omega
    · rw [if_neg hp, segsBytes_nil, segsBytes_cons]
      omega

theorem takeWhile_eq_self_of_segsBytes (p : List Char → Bool) :
    ∀ segs : List (List Char),
      segsBytes (segs.takeWhile p) = segsBytes segs → ∀ l ∈ segs, p l = true := by
  intro segs
  induction segs with
  | nil => intro _ l hl; exact absurd hl (List.not_mem_nil l)
  | cons x rest ih =>
    intro h l hl
    rw [List.takeWhile_cons] at h
    by_cases hp : p x
    · rw [if_pos hp, segsBytes_cons, segsBytes_cons] at h
      rcases List.mem_cons.mp hl with rfl | hl'
      · exact hp
      · exact ih (by omega) l hl'
    · rw [if_neg hp, segsBytes_nil, segsBytes_cons] at h
      have := segsBytes_takeWhile_le p rest
      omega

theorem stream_eq_of_ge (parse : List Char → Option StreamMessage)
    (content : List Char) (off : Nat) (h : utf8Len content ≤ off) :
    getConversationStream parse content off = ⟨[], off⟩ := by
  unfold getConversationStream
  rw [if_pos h]

theorem stream_eq_of_lt (parse : List Char → Option StreamMessage)
    (content : List Char) (off : Nat) (h : off < utf8Len content) :
    getConversationStream parse content off =
      ⟨(streamConsume parse (rlOf (splitNl (byteDrop off content)))).1,
       if utf8Len content <
           off + (streamConsume parse (rlOf (splitNl (byteDrop off content)))).2
       then utf8Len content
       else off + (streamConsume parse (rlOf (splitNl (byteDrop off content)))).2⟩ := by
  unfold getConversationStream
  rw [if_neg (by omega)]

/-- C2: incremental reads are resumable: if the file once consisted of the
prefix `p` ending at a line boundary (empty, or ending in a newline), a first
read from offset 0 consumed all of `p` (nextOffset = |p| bytes), and the file
then grew to `p ++ s`, then the first read's messages followed by a second
read from |p| equal one single read of the whole file from 0, and the final
offsets agree.  The `'\r' ∉ p ++ s` hypothesis is a fidelity condition of the
line-splitting model (readline's carriage-return handling is not modelled). -/
theorem getConversationStream_resumable (parse : List Char → Option StreamMessage)
    (p s : List Char)
    (hboundary : p = [] ∨ ∃ q, p = q ++ ['\n'])
    (_hcr : '\r' ∉ p ++ s)
    (hconsumed : (getConversationStream parse p 0).nextOffset = utf8Len p) :
    (getConversationStream parse p 0).messages ++
        (getConversationStream parse (p ++ s) (utf8Len p)).messages =
      (getConversationStream parse (p ++ s) 0).messages ∧
    (getConversationStream parse (p ++ s) (utf8Len p)).nextOffset =
      (getConversationStream parse (p ++ s) 0).nextOffset := by
  rcases hboundary with rfl | ⟨q, rfl⟩
  · have h0 : getConversationStream parse [] 0 = ⟨[], 0⟩ :=
      stream_eq_of_ge parse [] 0 (by simp [utf8Len])
    rw [h0]
    constructor
    · simp [utf8Len_nil]
    · simp [utf8Len_nil]
  · have hN : utf8Len (q ++ ['\n']) = utf8Len q + 1 := by
      rw [utf8Len_append, utf8Len_cons, utf8Len_nil]
      have hnl : ('\n').utf8Size = 1 := rfl
      rw [hnl]
    have hsplitp : splitNl (q ++ ['\n']) = splitNl q ++ [[]] := by
      have h := splitNl_append_newline q []
      simpa [splitNl] using h
    have hlines1 : rlOf (splitNl (byteDrop 0 (q ++ ['\n']))) = splitNl q := by
      rw [byteDrop_zero, hsplitp, rlOf_concat_nil (splitNl_ne_nil q)]
    have hr1 : getConversationStream parse (q ++ ['\n']) 0 =
        ⟨(streamConsume parse (splitNl q)).1,
         if utf8Len (q ++ ['\n']) < 0 + (streamConsume parse (splitNl q)).2
         then utf8Len (q ++ ['\n'])
         else 0 + (streamConsume parse (splitNl q)).2⟩ := by
      rw [stream_eq_of_lt parse _ 0 (by rw [hN]; omega), hlines1]
    have hbytes_le : (streamConsume parse (splitNl q)).2 ≤ utf8Len q + 1 := by
      rw [streamConsume_characterize]
      calc segsBytes ((splitNl q).takeWhile (okLine parse))
          ≤ segsBytes (splitNl q) := segsBytes_takeWhile_le _ _
        _ = utf8Len q + 1 := segsBytes_splitNl q
    rw [hr1] at hconsumed
    dsimp only at hconsumed
    have hnotlt : ¬ (utf8Len (q ++ ['\n']) < 0 + (streamConsume parse (splitNl q)).2) := by
      rw [hN]; omega
    rw [if_neg hnotlt] at hconsumed
    have hB : (streamConsume parse (splitNl q)).2 = utf8Len q + 1 := by
      rw [hN] at hconsumed; omega
    have hok : ∀ l ∈ splitNl q, okLine parse l = true := by
      apply takeWhile_eq_self_of_segsBytes
      have hchar := streamConsume_characterize parse (splitNl q)
      have h2 : (streamConsume parse (splitNl q)).2 =
          segsBytes ((splitNl q).takeWhile (okLine parse)) := by rw [hchar]
      rw [segsBytes_splitNl]
      omega
    cases s with
    | nil =>
      simp only [List.append_nil]
      have h2 : getConversationStream parse (q ++ ['\n']) (utf8Len (q ++ ['\n'])) =
          ⟨[], utf8Len (q ++ ['\n'])⟩ :=
        stream_eq_of_ge parse _ _ (by omega)
      constructor
      · rw [h2, hr1]
        simp
      · rw [h2, hr1]
        dsimp only
        rw [if_neg hnotlt]
        rw [hN]
        omega
    | cons c0 s0 =>
      have hs_ne : (c0 :: s0 : List Char) ≠ [] := by simp
      have hsize : utf8Len ((q ++ ['\n']) ++ (c0 :: s0)) =
          (utf8Len q + 1) + utf8Len (c0 :: s0) := by rw [utf8Len_append, hN]
      have hspos : 0 < utf8Len (c0 :: s0) := utf8Len_pos _ hs_ne
      have hsplitfull : splitNl ((q ++ ['\n']) ++ (c0 :: s0)) =
          splitNl q ++ splitNl (c0 :: s0) := by
        have hre : (q ++ ['\n']) ++ (c0 :: s0) = q ++ '\n' :: (c0 :: s0) := by simp
        rw [hre, splitNl_append_newline]
      have hlinesF : rlOf (splitNl (byteDrop 0 ((q ++ ['\n']) ++ (c0 :: s0)))) =
          splitNl q ++ rlOf (splitNl (c0 :: s0)) := by
        rw [byteDrop_zero, hsplitfull,
          rlOf_append (splitNl q) (splitNl_ne_nil _) (splitNl_eq_nil_singleton _ hs_ne)]
      have hdrop : byteDrop (utf8Len (q ++ ['\n'])) ((q ++ ['\n']) ++ (c0 :: s0)) =
          c0 :: s0 := byteDrop_utf8Len_append _ _
      have hconsF : streamConsume parse (splitNl q ++ rlOf (splitNl (c0 :: s0))) =
          ((streamConsume parse (splitNl q)).1 ++
             (streamConsume parse (rlOf (splitNl (c0 :: s0)))).1,
           segsBytes (splitNl q) +
             (streamConsume parse (rlOf (splitNl (c0 :: s0)))).2) :=
        streamConsume_append_ok parse _ _ hok
      have hrF := stream_eq_of_lt parse ((q ++ ['\n']) ++ (c0 :: s0)) 0
        (by rw [hsize]; omega)
      rw [hlinesF, hconsF] at hrF
      have hr2 := stream_eq_of_lt parse ((q ++ ['\n']) ++ (c0 :: s0)) (utf8Len (q ++ ['\n']))
        (by rw [hsize, hN]; omega)
      rw [hdrop] at hr2
      have hoff : utf8Len (q ++ ['\n']) + (streamConsume parse (rlOf (splitNl (c0 :: s0)))).2 =
          0 + (segsBytes (splitNl q) + (streamConsume parse (rlOf (splitNl (c0 :: s0)))).2) := by
        rw [hN, segsBytes_splitNl]
        omega
      constructor
      · rw [hr1, hr2, hrF]
      · rw [hr2, hrF]
        dsimp only
        rw [hoff]

/-- Witness for C2 at a concrete two-line transcript split at its first line
boundary. -/
theorem getConversationStream_resumable_witness :
    (getConversationStream cparse (userLine ++ ['\n']) 0).messages ++
        (getConversationStream cparse ((userLine ++ ['\n']) ++ (userLine2 ++ ['\n']))
          (utf8Len (userLine ++ ['\n']))).messages =
      (getConversationStream cparse ((userLine ++ ['\n']) ++ (userLine2 ++ ['\n'])) 0).messages ∧
    (getConversationStream cparse ((userLine ++ ['\n']) ++ (userLine2 ++ ['\n']))
        (utf8Len (userLine ++ ['\n']))).nextOffset =
      (getConversationStream cparse ((userLine ++ ['\n']) ++ (userLine2 ++ ['\n'])) 0).nextOffset :=
  getConversationStream_resumable cparse (userLine ++ ['\n']) (userLine2 ++ ['\n'])
    (Or.inr ⟨userLine, rfl⟩) (by decide) (by decide)

/-- C1 counterexample: for a transcript consisting of one well-formed SUMMARY
line, the incremental read returns no messages yet advances `nextOffset` past
the line (to the full file size), refuting the claim that the offset advances
past a line only when that line is a well-formed `user`/`assistant` line. -/
theorem getConversationStream_summary_advances_counterexample :
    cparse summaryLine = some ⟨MsgType.summary, 1⟩ ∧
    (getConversationStream cparse summaryContent 0).messages = [] ∧
    (getConversationStream cparse summaryContent 0).nextOffset = utf8Len summaryContent ∧
    0 < utf8Len summaryContent :=
  ⟨by decide, by decide, by decide, by decide⟩

/-- C1 as amended: for every read at an offset not beyond the file size (and
landing on a character boundary — a fidelity condition of the byte-slicing
model, as is the absence of carriage returns), the scan consumes exactly the
maximal prefix of lines that are blank or parse as JSON (of ANY type); it
stops at the first non-blank unparseable line; the returned messages are the
`user`/`assistant` messages among the consumed lines, and `nextOffset` is the
offset advanced by exactly the consumed lines' bytes, clamped to the file
size. -/
theorem getConversationStream_offset_advance (parse : List Char → Option StreamMessage)
    (content : List Char) (off : Nat)
    (hoff : off ≤ utf8Len content)
    (_halign : ∃ p s, content = p ++ s ∧ utf8Len p = off)
    (_hcr : '\r' ∉ content) :
    getConversationStream parse content off =
      ⟨((((rlOf (splitNl (byteDrop off content))).takeWhile (okLine parse)).filter
            (fun l => !(isBlank l))).filterMap parse).filter
          (fun m => decide (m.type = MsgType.user) || decide (m.type = MsgType.assistant)),
       min (off + segsBytes ((rlOf (splitNl (byteDrop off content))).takeWhile (okLine parse)))
         (utf8Len content)⟩ := by
  rcases Nat.lt_or_ge off (utf8Len content) with hlt | hge
  · rw [stream_eq_of_lt parse content off hlt, streamConsume_characterize]
    dsimp only
    congr 1
    by_cases h : utf8Len content <
        off + segsBytes ((rlOf (splitNl (byteDrop off content))).takeWhile (okLine parse))
    · rw [if_pos h]; omega
    · rw [if_neg h]; omega
  · have heq : off = utf8Len content := Nat.le_antisymm hoff hge
    rw [stream_eq_of_ge parse content off hge]
    have hbd : byteDrop off content = [] := by
      rw [heq]
      have h2 := byteDrop_utf8Len_append content []
      rwa [List.append_nil] at h2
    rw [hbd]
    have hrl : rlOf (splitNl ([] : List Char)) = [[]] := by simp [splitNl, rlOf]
    rw [hrl]
    have hokempty : okLine parse [] = true := by simp [okLine, isBlank]
    have htw : ([[]] : List (List Char)).takeWhile (okLine parse) = [[]] := by
      rw [List.takeWhile_cons, if_pos hokempty]
      rfl
    rw [htw]
    have hblank : isBlank ([] : List Char) = true := by simp [isBlank]
    have hfil : ([[]] : List (List Char)).filter (fun l => !(isBlank l)) = [] := by
      simp [List.filter_cons, hblank]
    rw [hfil]
    have hsb : segsBytes [[]] = 1 := by
      rw [segsBytes_cons, segsBytes_nil, utf8Len_nil]
    rw [hsb]
    congr 1
    omega

/-- Witness for C1's amended theorem at the concrete summary-line transcript
read from offset 0. -/
theorem getConversationStream_offset_advance_witness :
    getConversationStream cparse summaryContent 0 =
      ⟨((((rlOf (splitNl (byteDrop 0 summaryContent))).takeWhile (okLine cparse)).filter
            (fun l => !(isBlank l))).filterMap cparse).filter
          (fun m => decide (m.type = MsgType.user) || decide (m.type = MsgType.assistant)),
       min (0 + segsBytes ((rlOf (splitNl (byteDrop 0 summaryContent))).takeWhile (okLine cparse)))
         (utf8Len summaryContent)⟩ :=
  getConversationStream_offset_advance cparse summaryContent 0 (by decide)
    ⟨[], summaryContent, rfl, rfl⟩ (by decide)

theorem streamConsumeW_eq (parse : List Char → Option StreamMessage) :
    ∀ segs : List (List Char), segs ≠ [] →
      ClaudeStorage.streamConsumeW parse segs =
        ((streamConsume parse (rlOf segs)).1,
         min (streamConsume parse (rlOf segs)).2 (segsBytes segs - 1)) := by
  intro segs
  induction segs with
  | nil => intro h; exact absurd rfl h
  | cons l T ih =>
    intro _
    cases T with
    | nil =>
      have hrl : rlOf [l] = [l] := by simp [rlOf]
      rw [hrl]
      by_cases hb : isBlank l
      · have hw : ClaudeStorage.streamConsumeW parse [l] = ([], utf8Len l) := by
          simp [ClaudeStorage.streamConsumeW, hb]
        have hs : streamConsume parse [l] = ([], utf8Len l + 1) := by
          simp [streamConsume, hb]
        rw [hw, hs, segsBytes_cons, segsBytes_nil]
        congr 1
        omega
      · cases hp : parse l with
        | none =>
          have hw : ClaudeStorage.streamConsumeW parse [l] = ([], 0) := by
            simp [ClaudeStorage.streamConsumeW, hb, hp]
          have hs : streamConsume parse [l] = ([], 0) := by
            simp [streamConsume, hb, hp]
          rw [hw, hs]
          congr 1
          omega
        | some m =>
          have hw : ClaudeStorage.streamConsumeW parse [l] =
              ((if m.type = MsgType.user ∨ m.type = MsgType.assistant then [m] else []),
               utf8Len l) := by
            simp [ClaudeStorage.streamConsumeW, hb, hp]
          have hs : streamConsume parse [l] =
              ((if m.type = MsgType.user ∨ m.type = MsgType.assistant then [m] else []),
               utf8Len l + 1) := by
            simp [streamConsume, hb, hp]
          rw [hw, hs, segsBytes_cons, segsBytes_nil]
          congr 1
          omega
    | cons l2 T' =>
      by_cases hT : l2 = [] ∧ T' = []
      · obtain ⟨rfl, rfl⟩ := hT
        have hrl : rlOf [l, []] = [l] := by simp [rlOf]
        rw [hrl]
        by_cases hb : isBlank l
        · have hbe : isBlank ([] : List Char) = true := rfl
          have hw : ClaudeStorage.streamConsumeW parse [l, []] = ([], utf8Len l + 1) := by
            simp [ClaudeStorage.streamConsumeW, hb, hbe, utf8Len_nil]
          have hs : streamConsume parse [l] = ([], utf8Len l + 1) := by
            simp [streamConsume, hb]
          rw [hw, hs, segsBytes_cons, segsBytes_cons, segsBytes_nil, utf8Len_nil]
          congr 1
          omega
        · cases hp : parse l with
          | none =>
            have hw : ClaudeStorage.streamConsumeW parse [l, []] = ([], 0) := by
              simp [ClaudeStorage.streamConsumeW, hb, hp]
            have hs : streamConsume parse [l] = ([], 0) := by
              simp [streamConsume, hb, hp]
            rw [hw, hs]
            congr 1
          | some m =>
            have hbe : isBlank ([] : List Char) = true := rfl
            have hw : ClaudeStorage.streamConsumeW parse [l, []] =
                ((if m.type = MsgType.user ∨ m.type = MsgType.assistant then [m] else []),
                 utf8Len l + 1) := by
              simp [ClaudeStorage.streamConsumeW, hb, hp, hbe, utf8Len_nil]
            have hs : streamConsume parse [l] =
                ((if m.type = MsgType.user ∨ m.type = MsgType.assistant then [m] else []),
                 utf8Len l + 1) := by
              simp [streamConsume, hb, hp]
            rw [hw, hs, segsBytes_cons, segsBytes_cons, segsBytes_nil, utf8Len_nil]
            congr 1
            omega
      · have hne2 : (l2 :: T' : List (List Char)) ≠ [] := by simp
        have hne3 : (l2 :: T' : List (List Char)) ≠ [[]] := by
          intro hh
          have h1 := (List.cons.injEq _ _ _ _).mp hh
          exact hT ⟨h1.1, h1.2⟩
        have hrl : rlOf (l :: l2 :: T') = l :: rlOf (l2 :: T') := rlOf_cons l hne2 hne3
        rw [hrl]
        have hih := ih hne2
        have hpos := segsBytes_pos l2 T'
        by_cases hb : isBlank l
        · have hw : ClaudeStorage.streamConsumeW parse (l :: l2 :: T') =
              ((ClaudeStorage.streamConsumeW parse (l2 :: T')).1,
               (utf8Len l + 1) + (ClaudeStorage.streamConsumeW parse (l2 :: T')).2) := by
            simp [ClaudeStorage.streamConsumeW, hb]
          have hs : streamConsume parse (l :: rlOf (l2 :: T')) =
              ((streamConsume parse (rlOf (l2 :: T'))).1,
               (utf8Len l + 1) + (streamConsume parse (rlOf (l2 :: T'))).2) := by
            simp [streamConsume, hb]
          rw [hw, hs, hih]
          dsimp only
          congr 1
          rw [show segsBytes (l :: l2 :: T') = (utf8Len l + 1) + segsBytes (l2 :: T') from
            segsBytes_cons l (l2 :: T')]
          omega
        · cases hp : parse l with
          | none =>
            have hw : ClaudeStorage.streamConsumeW parse (l :: l2 :: T') = ([], 0) := by
              simp [ClaudeStorage.streamConsumeW, hb, hp]
            have hs : streamConsume parse (l :: rlOf (l2 :: T')) = ([], 0) := by
              simp [streamConsume, hb, hp]
            rw [hw, hs]
            congr 1
            omega
          | some m =>
            have hw : ClaudeStorage.streamConsumeW parse (l :: l2 :: T') =
                ((if m.type = MsgType.user ∨ m.type = MsgType.assistant
                  then m :: (ClaudeStorage.streamConsumeW parse (l2 :: T')).1
                  else (ClaudeStorage.streamConsumeW parse (l2 :: T')).1),
                 (utf8Len l + 1) + (ClaudeStorage.streamConsumeW parse (l2 :: T')).2) := by
              simp [ClaudeStorage.streamConsumeW, hb, hp]
            have hs : streamConsume parse (l :: rlOf (l2 :: T')) =
                ((if m.type = MsgType.user ∨ m.type = MsgType.assistant
                  then m :: (streamConsume parse (rlOf (l2 :: T'))).1
                  else (streamConsume parse (rlOf (l2 :: T'))).1),
                 (utf8Len l + 1) + (streamConsume parse (rlOf (l2 :: T'))).2) := by
              simp [streamConsume, hb, hp]
            rw [hw, hs, hih]
            dsimp only
            congr 1
            rw [show segsBytes (l :: l2 :: T') = (utf8Len l + 1) + segsBytes (l2 :: T') from
              segsBytes_cons l (l2 :: T')]
            omega

/-- C10 counterexample: on a transcript whose first line contains a two-byte
character, reading from the byte offset of the second line (3) makes the two
implementations disagree: the module-level reader slices by BYTES and parses
the user line (nextOffset 19 = file size), while `ClaudeStorage`'s reader
slices the decoded string by CHARACTERS, mangling the line so that it fails
to parse (nextOffset stays 3). -/
theorem getConversationStream_impls_differ_counterexample :
    getConversationStream cparse multibyteContent 3 =
        ⟨[⟨MsgType.user, 0⟩], 19⟩ ∧
    ClaudeStorage.getConversationStream cparse multibyteContent 3 = ⟨[], 3⟩ ∧
    getConversationStream cparse multibyteContent 3 ≠
      ClaudeStorage.getConversationStream cparse multibyteContent 3 :=
  ⟨by decide, by decide, by decide⟩

/-- C10 as amended: the two incremental-reader implementations agree — same
messages and same `nextOffset` — for every fromOffset on content made of
single-byte characters (where byte offsets and character offsets coincide)
and free of carriage returns (a fidelity condition of the line-splitting
model). -/
theorem getConversationStream_impls_agree (parse : List Char → Option StreamMessage)
    (content : List Char) (off : Nat)
    (hascii : ∀ c ∈ content, c.utf8Size = 1)
    (_hcr : '\r' ∉ content) :
    getConversationStream parse content off =
      ClaudeStorage.getConversationStream parse content off := by
  have hlen : utf8Len content = content.length := utf8Len_ascii content hascii
  rcases Nat.lt_or_ge off (utf8Len content) with hlt | hge
  · have hdropne : content.drop off ≠ [] := by
      intro hh
      have h2 := List.drop_eq_nil_iff.mp hh
      omega
    have hbd : byteDrop off content = content.drop off := byteDrop_ascii content off hascii
    have hwu : ClaudeStorage.getConversationStream parse content off =
        ⟨(ClaudeStorage.streamConsumeW parse (splitNl (content.drop off))).1,
         off + (ClaudeStorage.streamConsumeW parse (splitNl (content.drop off))).2⟩ := by
      unfold ClaudeStorage.getConversationStream
      rw [if_neg (by omega)]
      have hemp : (content.drop off).isEmpty = false := by
        cases hd : content.drop off with
        | nil => exact absurd hd hdropne
        | cons a b => rfl
      dsimp only
      rw [hemp, if_neg Bool.false_ne_true]
    have hWS := streamConsumeW_eq parse (splitNl (content.drop off)) (splitNl_ne_nil _)
    rw [hwu, hWS]
    dsimp only
    rw [stream_eq_of_lt parse content off hlt, hbd]
    congr 1
    rw [segsBytes_splitNl]
    have hdl : utf8Len (content.drop off) = content.length - off := by
      rw [utf8Len_ascii _ (fun c hc => hascii c (List.drop_subset _ _ hc))]
      rw [List.length_drop]
    rw [hdl]
    by_cases h : utf8Len content <
        off + (streamConsume parse (rlOf (splitNl (content.drop off)))).2
    · rw [if_pos h]; omega
    · rw [if_neg h]; omega
  · rw [stream_eq_of_ge parse content off hge]
    unfold ClaudeStorage.getConversationStream
    rw [if_pos hge]

/-- Witness for C10's amended equivalence at a concrete ASCII transcript. -/
theorem getConversationStream_impls_agree_witness :
    getConversationStream cparse (userLine ++ ['\n']) 0 =
      ClaudeStorage.getConversationStream cparse (userLine ++ ['\n']) 0 :=
  getConversationStream_impls_agree cparse (userLine ++ ['\n']) 0 (by decide) (by decide)
